import Mathlib

/-!
# Verification of the `tccc_simple` retrieval pipeline

A shallow embedding, over `List Char`, of the pure core of
`src/tccc_simple.py`: sentence splitting and chunking
(`SimpleTextSearch._create_chunks`), keyword scoring
(`SimpleTextSearch.search_keywords`), context assembly and prompt
construction (`SimpleTCCCCLI.query`, `SimpleTCCCLLM.query`).

Embedding conventions:
* Python strings are modelled as `List Char`; Python `str.lower` is modelled
  for its ASCII range by `Char.toLower`.
* The Python source writes `"\\n"` inside ordinary (non-raw) string literals,
  so the page-text "line separator" used by `_create_chunks` and the joiners
  used by `SimpleTCCCCLI.query` are the literal two-character sequence
  backslash `n`, not a newline.  `nlLit` below is that two-character list.
  The triple-quoted prompt templates in `SimpleTCCCLLM.query`, by contrast,
  contain real newline characters.
* `str.count` (non-overlapping, left-to-right) is `countOccs`;
  `sub in s` is `containsSub`; `str.replace` is `replaceSub`;
  `str.strip()` is `pyStrip` (ASCII whitespace); `str.split()` with no
  arguments is `pySplitWs`; `str.split(sep)` is `pySplitOn`;
  `re.split(r'[.!?]+', text)` is `splitSent`.
* Python's `set(...)` only feeds a commutative sum, so it is modelled by
  `List.dedup`; `list.sort(key=..., reverse=True)` is Python's stable sort,
  modelled by the stable insertion sort `sortDesc`.
-/

/-- The sentence-terminator characters of `re.split(r'[.!?]+', text)`. -/
def isTerm (c : Char) : Bool := c == '.' || c == '!' || c == '?'

/-- ASCII whitespace as stripped/split by Python's `str.strip()` / `str.split()`. -/
def isPyWs (c : Char) : Bool :=
  c == ' ' || c == '\t' || c == '\n' || c == '\r' || c == '\x0b' || c == '\x0c'

/-- Python `str.lower()`, restricted to its ASCII behaviour. -/
def pyLower (l : List Char) : List Char := l.map Char.toLower

/-- Python `str.strip()`: drop leading and trailing whitespace. -/
def pyStrip (l : List Char) : List Char :=
  ((l.dropWhile isPyWs).reverse.dropWhile isPyWs).reverse

/-- Helper for `countOccs`, assuming a non-empty needle: scan left to right;
    after a match the skip counter makes the scan resume right after the
    matched occurrence (non-overlapping). -/
def countOccsAux (needle : List Char) : List Char → Nat → Nat
  | [], _ => 0
  | c :: cs, 0 =>
    if needle.isPrefixOf (c :: cs) then
      1 + countOccsAux needle cs (needle.length - 1)
    else
      countOccsAux needle cs 0
  | _ :: cs, k + 1 => countOccsAux needle cs k

/-- Python `hay.count(needle)`: non-overlapping occurrences, left to right
    (`"".count("") = 1`, `s.count("") = len(s) + 1`). -/
def countOccs (needle hay : List Char) : Nat :=
  if needle = [] then hay.length + 1 else countOccsAux needle hay 0

/-- Python `needle in hay` substring test. -/
def containsSub (needle : List Char) : List Char → Bool
  | [] => needle.isEmpty
  | c :: cs => needle.isPrefixOf (c :: cs) || containsSub needle cs

/-- Python `s.replace(old, new)` for non-empty `old` (as at its one call
    site, `old = "--- Page"`): replace non-overlapping occurrences left to
    right. -/
def replaceSubAux (old new : List Char) : List Char → Nat → List Char
  | [], _ => []
  | c :: cs, 0 =>
    if old ≠ [] ∧ old.isPrefixOf (c :: cs) then
      new ++ replaceSubAux old new cs (old.length - 1)
    else
      c :: replaceSubAux old new cs 0
  | _ :: cs, k + 1 => replaceSubAux old new cs k

/-- Wrapper starting the scan with an empty skip counter. -/
def replaceSub (old new l : List Char) : List Char := replaceSubAux old new l 0

/-- Python `s.split(delim)` for non-empty `delim` (as at its one call site,
    `delim = "\\n"`): split at each non-overlapping occurrence, keeping
    empty pieces. -/
def pySplitOnAux (delim : List Char) : List Char → Nat → List (List Char)
  | [], _ => [[]]
  | c :: cs, 0 =>
    if delim ≠ [] ∧ delim.isPrefixOf (c :: cs) then
      [] :: pySplitOnAux delim cs (delim.length - 1)
    else
      (c :: (pySplitOnAux delim cs 0).headI) :: (pySplitOnAux delim cs 0).tail
  | _ :: cs, k + 1 => pySplitOnAux delim cs k

/-- Wrapper starting the scan with an empty skip counter. -/
def pySplitOn (delim l : List Char) : List (List Char) := pySplitOnAux delim l 0

/-- Accumulator worker for `pySplitWs` (`acc` holds the current word,
    reversed). -/
def wsplitAux : List Char → List Char → List (List Char)
  | [], acc => if acc = [] then [] else [acc.reverse]
  | c :: cs, acc =>
    if isPyWs c then
      (if acc = [] then wsplitAux cs [] else acc.reverse :: wsplitAux cs [])
    else
      wsplitAux cs (c :: acc)

/-- Python `s.split()` with no argument: split on runs of whitespace,
    producing no empty words. -/
def pySplitWs (l : List Char) : List (List Char) := wsplitAux l []

/-- `re.split(r'[.!?]+', text)`: split on maximal runs of sentence
    terminators.  Empty pieces arise only from terminators at the very start
    or end of the text. -/
def splitSentAux : List Char → Bool → List (List Char)
  | [], _ => [[]]
  | c :: cs, inRun =>
    if isTerm c then
      if inRun then splitSentAux cs true
      else [] :: splitSentAux cs true
    else
      (c :: (splitSentAux cs false).headI) :: (splitSentAux cs false).tail

/-- Wrapper: the scan starts outside a terminator run. -/
def splitSent (t : List Char) : List (List Char) := splitSentAux t false

/-- A chunk as built by `SimpleTextSearch._create_chunks`. -/
structure Chunk where
  text : List Char
  chunk_id : Nat
  page_info : List Char
deriving DecidableEq

/-- A scored search result as built by `SimpleTextSearch.search_keywords`. -/
structure ScoredChunk where
  text : List Char
  page_info : List Char
  score : Nat
  chunk_id : Nat
deriving DecidableEq

/-- The literal two-character sequence backslash `n` written `"\\n"` in the
    Python source (inside a non-raw string literal). -/
def nlLit : List Char := "\\n".toList

/-- The page-marker token `"--- Page"`. -/
def pageMarker : List Char := "--- Page".toList

/-- The fallback page label `"Unknown page"`. -/
def unknownPageLabel : List Char := "Unknown page".toList

/-- The trailing-chunk page label `"Final chunk"`. -/
def finalChunkLabel : List Char := "Final chunk".toList

/-- The page-info scan of `_create_chunks` (lines 79–83): look at the first
    10 "lines" of the buffer (split on the literal `"\\n"`), take the first
    one containing `"--- Page"`, stripped; Python's `page_match or
    "Unknown page"` also falls back when the stripped line is empty. -/
def pageScan (buf : List Char) : List Char :=
  match ((pySplitOn nlLit buf).take 10).find? (fun line => containsSub pageMarker line) with
  | some line => if pyStrip line = [] then unknownPageLabel else pyStrip line
  | none => unknownPageLabel

/-- The sentence-accumulation loop of `_create_chunks` (lines 76–101).
    State: remaining sentences, current buffer (`current_chunk`), next id.
    `chunk_size < buf.length + s.length` is `len(current_chunk + sentence) >
    chunk_size`; `buf ≠ []` is the truthiness test `and current_chunk`.  On
    overflow the buffer is emitted (stripped, with the page scan) and the new
    buffer starts as the bare overflowing sentence; otherwise the sentence
    plus a re-appended `'.'` is accumulated.  A non-empty leftover buffer is
    emitted with the label `"Final chunk"` and no page scan. -/
def chunksLoop (chunk_size : Nat) : List (List Char) → List Char → Nat → List Chunk
  | [], buf, cid =>
    if pyStrip buf ≠ [] then [⟨pyStrip buf, cid, finalChunkLabel⟩] else []
  | s :: ss, buf, cid =>
    if chunk_size < buf.length + s.length ∧ buf ≠ [] then
      ⟨pyStrip buf, cid, pageScan buf⟩ :: chunksLoop chunk_size ss s (cid + 1)
    else
      chunksLoop chunk_size ss (buf ++ s ++ ['.']) cid

/-- `SimpleTextSearch._create_chunks(text, chunk_size=1000)`. -/
def create_chunks (text : List Char) (chunk_size : Nat := 1000) : List Chunk :=
  chunksLoop chunk_size (splitSent text) [] 0

/-- The value of `current_chunk` left over after the loop of
    `_create_chunks` (companion to `chunksLoop`). -/
def leftoverBuf (chunk_size : Nat) : List (List Char) → List Char → List Char
  | [], buf => buf
  | s :: ss, buf =>
    if chunk_size < buf.length + s.length ∧ buf ≠ [] then
      leftoverBuf chunk_size ss s
    else
      leftoverBuf chunk_size ss (buf ++ s ++ ['.'])

/-- The fixed list of boosted medical terms (line 119). -/
def medicalTerms : List (List Char) :=
  ["hemorrhage".toList, "bleeding".toList, "tourniquet".toList, "airway".toList,
   "breathing".toList, "circulation".toList, "shock".toList, "wound".toList]

/-- The per-chunk score of `search_keywords` (lines 107–122): sum of
    `chunk_text.count(word)` over the set of lower-cased query words, plus 5
    for each medical term occurring in both the lower-cased chunk text and
    the lower-cased query.  Python's `set` feeds a commutative sum only, so
    it is modelled by `dedup`. -/
def chunkScore (query : List Char) (ctext : List Char) : Nat :=
  let chunkLower := pyLower ctext
  let queryWords := (pySplitWs (pyLower query)).dedup
  let base := (queryWords.map (fun w => countOccs w chunkLower)).sum
  medicalTerms.foldl
    (fun sc t => if containsSub t chunkLower && containsSub t (pyLower query) then sc + 5 else sc)
    base

/-- The positively-scored chunks, in original chunk order (lines 110–130). -/
def scoredList (chunks : List Chunk) (query : List Char) : List ScoredChunk :=
  chunks.filterMap (fun ch =>
    let sc := chunkScore query ch.text
    if 0 < sc then some ⟨ch.text, ch.page_info, sc, ch.chunk_id⟩ else none)

/-- Insertion step of the stable descending sort: `x` is placed before the
    first element whose score is not larger, so earlier elements win ties. -/
def insDesc (x : ScoredChunk) : List ScoredChunk → List ScoredChunk
  | [] => [x]
  | y :: ys => if x.score < y.score then y :: insDesc x ys else x :: y :: ys

/-- Stable descending sort by score, modelling Python's stable
    `scored_chunks.sort(key=lambda x: x["score"], reverse=True)`. -/
def sortDesc : List ScoredChunk → List ScoredChunk
  | [] => []
  | x :: xs => insDesc x (sortDesc xs)

/-- `SimpleTextSearch.search_keywords(query, max_results=5)` (lines
    105–134): score, keep positive scores, stable-sort descending, cap. -/
def search_keywords (chunks : List Chunk) (query : List Char)
    (max_results : Nat := 5) : List ScoredChunk :=
  (sortDesc (scoredList chunks query)).take max_results

/-- Display form of a page label (line 229): `page_info.replace("--- Page",
    "Page")`. -/
def pageDisplay (pi : List Char) : List Char := replaceSub pageMarker "Page".toList pi

/-- One context block (line 231): `f"[Source {i+1} - {page_info}]\\n{text}"`
    with the chunk text cut to its first 600 characters (line 230). -/
def contextPart (i : Nat) (r : ScoredChunk) : List Char :=
  "[Source ".toList ++ (Nat.repr (i + 1)).toList ++ " - ".toList ++
    pageDisplay r.page_info ++ "]".toList ++ nlLit ++ r.text.take 600

/-- The context blocks of the top (at most) 3 results (line 228). -/
def contextParts (results : List ScoredChunk) : List (List Char) :=
  (results.take 3).enum.map (fun p => contextPart p.1 p.2)

/-- The assembled context of `SimpleTCCCCLI.query` (lines 222–232): empty
    when there are no results, else the blocks joined by the literal
    `"\\n\\n"`. -/
def buildContext (results : List ScoredChunk) : List Char :=
  if results = [] then [] else List.intercalate ("\\n\\n".toList) (contextParts results)

/-- The `full_prompt` of `SimpleTCCCLLM.query` (lines 152–162); the
    triple-quoted templates contain real newlines. -/
def fullPrompt (question context : List Char) : List Char :=
  if context ≠ [] then
    "TCCC Handbook Context:\n".toList ++ context ++
      "\n\nEmergency Question: ".toList ++ question ++
      "\n\nBased on the handbook context above, provide immediate field guidance using bullet points for procedures:".toList
  else
    "Emergency Question: ".toList ++ question ++
      "\n\nProvide immediate TCCC field guidance:".toList

/-- `urgency_color` (line 215). -/
def urgencyColor (urgent : Bool) : List Char :=
  if urgent then "red".toList else "yellow".toList

/-- The panel title (lines 243–245). -/
def panelTitle (urgent : Bool) : List Char :=
  if urgent then "🚨 URGENT MEDICAL GUIDANCE".toList else "📋 TCCC Guidance".toList

/-- The panel border style (lines 243–245). -/
def panelBorder (urgent : Bool) : List Char :=
  if urgent then "red".toList else "green".toList

/-- Everything `SimpleTCCCCLI.query` computes from its arguments, data and
    presentation: search results, assembled context, the prompt handed to
    the generation collaborator, and the urgency-dependent presentation. -/
structure QueryOutcome where
  searchResults : List ScoredChunk
  context : List Char
  prompt : List Char
  queryColor : List Char
  title : List Char
  border : List Char
deriving DecidableEq

/-- `SimpleTCCCCLI.query(question, urgent)` (lines 211–247), as a pure
    function of the chunk sequence, the question and the urgent flag. -/
def runQuery (chunks : List Chunk) (question : List Char) (urgent : Bool) : QueryOutcome :=
  let results := search_keywords chunks question 5
  let ctx := buildContext results
  ⟨results, ctx, fullPrompt question ctx, urgencyColor urgent, panelTitle urgent, panelBorder urgent⟩

/-- Spec-side score, following the words of the specification (§4.2): the
    sum, over the set of unique lower-cased whitespace-separated query
    words, of the non-overlapping substring occurrence count of that word in
    the lower-cased chunk text, plus a bonus of exactly 5 for each medical
    term that is a substring of both the lower-cased query and the
    lower-cased chunk text (once per term). -/
def specScore (query : List Char) (ctext : List Char) : Nat :=
  ((pySplitWs (pyLower query)).toFinset).sum (fun w => countOccs w (pyLower ctext))
    + 5 * (medicalTerms.filter
        (fun t => containsSub t (pyLower query) && containsSub t (pyLower ctext))).length

/-- Remove every `'.'`: since sentence pieces contain no `'.'`, `'!'` or
    `'?'`, the periods in a chunk text are exactly the synthetic re-appended
    terminators, so this is "ignoring the synthetic trailing-period
    reinsertion". -/
def removeDots (l : List Char) : List Char := l.filter (fun c => c != '.')

/-- `withPeriods g` renders the sentences of `g` the way the accumulation
    branch of `_create_chunks` does: each followed by a re-appended `'.'`. -/
def withPeriods (g : List (List Char)) : List Char := (g.map (fun s => s ++ ['.'])).flatten

/-- Shape of the raw buffer of every chunk that is opened by an overflowing
    sentence: a bare first sentence (member of `S`, no re-appended `'.'`
    after it) followed by accumulated sentences each carrying a re-appended
    `'.'`. -/
def laterChunkText (S : List (List Char)) (t : List Char) : Prop :=
  ∃ s ∈ S, ∃ g : List (List Char), (∀ x ∈ g, x ∈ S) ∧ t = pyStrip (s ++ withPeriods g)

/-! ## Helper lemmas -/

/-- Folding the +5 medical-term boost equals 5 per term passing the test. -/
lemma foldl_boost (p : List Char → Bool) (ts : List (List Char)) (b : Nat) :
    ts.foldl (fun sc t => if p t then sc + 5 else sc) b = b + 5 * (ts.filter p).length := by
  induction ts generalizing b with
  | nil => simp
  | cons t ts ih =>
    by_cases h : p t
    · simp only [List.foldl_cons, List.filter_cons, h, if_true, ih]
      simp only [List.length_cons]
      omega
    · simp [h, ih]

lemma toFinset_dedup_list (l : List (List Char)) : l.dedup.toFinset = l.toFinset := by
  ext a
  simp [List.mem_toFinset, List.mem_dedup]

lemma mem_insDesc {a x : ScoredChunk} {l : List ScoredChunk} :
    a ∈ insDesc x l ↔ a = x ∨ a ∈ l := by
  induction l with
  | nil => simp [insDesc]
  | cons y ys ih =>
    by_cases h : x.score < y.score
    · simp only [insDesc, if_pos h, List.mem_cons, ih]
      tauto
    · simp only [insDesc, if_neg h, List.mem_cons]

lemma mem_sortDesc {a : ScoredChunk} {l : List ScoredChunk} :
    a ∈ sortDesc l ↔ a ∈ l := by
  induction l with
  | nil => simp [sortDesc]
  | cons x xs ih => simp [sortDesc, mem_insDesc, ih]

lemma sorted_insDesc {x : ScoredChunk} {l : List ScoredChunk}
    (h : l.Sorted (fun a b => b.score ≤ a.score)) :
    (insDesc x l).Sorted (fun a b => b.score ≤ a.score) := by
  induction l with
  | nil => simp [insDesc]
  | cons y ys ih =>
    rw [List.sorted_cons] at h
    obtain ⟨hy, hys⟩ := h
    by_cases hc : x.score < y.score
    · rw [insDesc, if_pos hc, List.sorted_cons]
      refine ⟨?_, ih hys⟩
      intro b hb
      rcases mem_insDesc.mp hb with rfl | hb
      · exact Nat.le_of_lt hc
      · exact hy b hb
    · rw [insDesc, if_neg hc, List.sorted_cons]
      refine ⟨?_, by rw [List.sorted_cons]; exact ⟨hy, hys⟩⟩
      intro b hb
      rcases List.mem_cons.mp hb with rfl | hb
      · omega
      · exact le_trans (hy b hb) (Nat.le_of_not_lt hc)

lemma sorted_sortDesc (l : List ScoredChunk) :
    (sortDesc l).Sorted (fun a b => b.score ≤ a.score) := by
  induction l with
  | nil => simp [sortDesc]
  | cons x xs ih => exact sorted_insDesc ih

/-- Stability of the insertion step: the score-`v` entries of `insDesc x l`
    are those of `l`, with `x` put first when its score is `v` (`x` is the
    element that came first in the original list). -/
lemma filter_insDesc (v : Nat) (x : ScoredChunk) (l : List ScoredChunk) :
    (insDesc x l).filter (fun e => e.score == v) =
      if x.score = v then x :: l.filter (fun e => e.score == v)
      else l.filter (fun e => e.score == v) := by
  induction l with
  | nil => by_cases h : x.score = v <;> simp [insDesc, h]
  | cons y ys ih =>
    by_cases hc : x.score < y.score
    · rw [insDesc, if_pos hc]
      by_cases hx : x.score = v
      · have hyv : (y.score == v) = false := by
          simp only [beq_eq_false_iff_ne, ne_eq]
          omega
        simp [List.filter_cons, hyv, ih, hx]
      · simp only [List.filter_cons, ih, if_neg hx]
    · rw [insDesc, if_neg hc]
      by_cases hx : x.score = v <;> simp [List.filter_cons, hx]

lemma filter_sortDesc (v : Nat) (l : List ScoredChunk) :
    (sortDesc l).filter (fun e => e.score == v) = l.filter (fun e => e.score == v) := by
  induction l with
  | nil => simp [sortDesc]
  | cons x xs ih =>
    rw [sortDesc, filter_insDesc]
    by_cases hx : x.score = v
    · simp [List.filter_cons, hx, ih]
    · simp [List.filter_cons, hx, ih]

lemma filter_take (p : α → Bool) :
    ∀ (l : List α) (n : Nat), ∃ k, (l.take n).filter p = (l.filter p).take k := by
  intro l
  induction l with
  | nil => exact fun n => ⟨0, by simp⟩
  | cons a l ih =>
    intro n
    cases n with
    | zero => exact ⟨0, by simp⟩
    | succ n =>
      obtain ⟨k, hk⟩ := ih n
      by_cases h : p a
      · exact ⟨k + 1, by simp [List.take_succ_cons, List.filter_cons, h, hk]⟩
      · exact ⟨k, by simp [List.take_succ_cons, List.filter_cons, h, hk]⟩

lemma mem_scoredList_pos {chunks : List Chunk} {q : List Char} {e : ScoredChunk}
    (h : e ∈ scoredList chunks q) : 0 < e.score := by
  unfold scoredList at h
  rw [List.mem_filterMap] at h
  obtain ⟨ch, _, hch⟩ := h
  by_cases hsc : 0 < chunkScore q ch.text
  · simp only [hsc, if_pos] at hch
    cases hch
    exact hsc
  · simp [hsc] at hch

lemma dropWhile_eq_self_of {p : Char → Bool} {l : List Char}
    (h : ∀ c ∈ l, p c = false) : l.dropWhile p = l := by
  cases l with
  | nil => rfl
  | cons a l => simp [List.dropWhile_cons, h a (List.mem_cons_self a l)]

lemma pyStrip_eq_self {l : List Char} (h : ∀ c ∈ l, isPyWs c = false) :
    pyStrip l = l := by
  unfold pyStrip
  rw [dropWhile_eq_self_of h, dropWhile_eq_self_of, List.reverse_reverse]
  intro c hc
  exact h c (List.mem_reverse.mp hc)

lemma pyStrip_length_le (l : List Char) : (pyStrip l).length ≤ l.length := by
  unfold pyStrip
  have h1 := (List.dropWhile_sublist (p := isPyWs) (l := l)).length_le
  have h2 := (List.dropWhile_sublist (p := isPyWs)
    (l := (l.dropWhile isPyWs).reverse)).length_le
  simp only [List.length_reverse] at *
  omega

lemma splitSentAux_ne_nil : ∀ (t : List Char) (b : Bool), splitSentAux t b ≠ [] := by
  intro t
  induction t with
  | nil => intro b; simp [splitSentAux]
  | cons c cs ih =>
    intro b
    by_cases h : isTerm c
    · cases b
      · simp [splitSentAux, h]
      · simp only [splitSentAux, if_pos h, if_pos]
        exact ih true
    · simp [splitSentAux, h]

lemma splitSent_ne_nil (t : List Char) : splitSent t ≠ [] :=
  splitSentAux_ne_nil t false

lemma splitSentAux_chars : ∀ (t : List Char) (b : Bool), ∀ p ∈ splitSentAux t b,
    ∀ c ∈ p, isTerm c = false ∧ c ∈ t := by
  intro t
  induction t with
  | nil =>
    intro b p hp x hx
    simp only [splitSentAux, List.mem_singleton] at hp
    subst hp
    simp at hx
  | cons c cs ih =>
    intro b p hp x hx
    by_cases h : isTerm c
    · cases b
      · simp only [splitSentAux, if_pos h, Bool.false_eq_true, if_false,
          List.mem_cons] at hp
        rcases hp with rfl | hp
        · simp at hx
        · obtain ⟨h1, h2⟩ := ih true p hp x hx
          exact ⟨h1, List.mem_cons_of_mem _ h2⟩
      · simp only [splitSentAux, if_pos h, if_true] at hp
        obtain ⟨h1, h2⟩ := ih true p hp x hx
        exact ⟨h1, List.mem_cons_of_mem _ h2⟩
    · simp only [splitSentAux, if_neg h, List.mem_cons] at hp
      rcases hp with rfl | hp
      · rcases List.mem_cons.mp hx with rfl | hx
        · exact ⟨Bool.eq_false_iff.mpr h, List.mem_cons_self _ _⟩
        · have hhead : (splitSentAux cs false).headI ∈ splitSentAux cs false := by
            cases hcs : splitSentAux cs false with
            | nil => exact absurd hcs (splitSentAux_ne_nil cs false)
            | cons a l => simp [List.headI]
          obtain ⟨h1, h2⟩ := ih false _ hhead x hx
          exact ⟨h1, List.mem_cons_of_mem _ h2⟩
      · obtain ⟨h1, h2⟩ := ih false p ((List.tail_sublist _).subset hp) x hx
        exact ⟨h1, List.mem_cons_of_mem _ h2⟩

lemma splitSent_chars (t : List Char) : ∀ p ∈ splitSent t, ∀ c ∈ p,
    isTerm c = false ∧ c ∈ t :=
  splitSentAux_chars t false

lemma ne_dot_of_not_isTerm {a : Char} (h : isTerm a = false) : (a != '.') = true := by
  simp only [isTerm, Bool.or_eq_false_iff, beq_eq_false_iff_ne, ne_eq] at h
  simp only [bne_iff_ne, ne_eq]
  exact h.1.1

lemma removeDots_append (a b : List Char) :
    removeDots (a ++ b) = removeDots a ++ removeDots b := by
  simp [removeDots, List.filter_append]

lemma removeDots_eq_self {s : List Char} (h : ∀ c ∈ s, isTerm c = false) :
    removeDots s = s := by
  rw [removeDots, List.filter_eq_self]
  exact fun a ha => ne_dot_of_not_isTerm (h a ha)

/-- Content invariant of the chunking loop: over terminator-free,
    whitespace-free sentences and a whitespace-free buffer, the emitted chunk
    texts with the synthetic periods removed concatenate to the buffer's
    content followed by the remaining sentences. -/
lemma chunksLoop_content (size : Nat) :
    ∀ (ss : List (List Char)) (buf : List Char) (cid : Nat),
      (∀ s ∈ ss, ∀ c ∈ s, isTerm c = false ∧ isPyWs c = false) →
      (∀ c ∈ buf, isPyWs c = false) →
      removeDots (((chunksLoop size ss buf cid).map Chunk.text).flatten)
        = removeDots buf ++ ss.flatten := by
  intro ss
  induction ss with
  | nil =>
    intro buf cid _ hbuf
    by_cases h : buf = []
    · subst h
      simp [chunksLoop, pyStrip, removeDots]
    · have hstrip : pyStrip buf = buf := pyStrip_eq_self hbuf
      simp only [chunksLoop, hstrip, if_pos (show buf ≠ [] from h), List.map_cons,
        List.map_nil, List.flatten_cons, List.flatten_nil, List.append_nil,
        List.flatten]
  | cons s ss ih =>
    intro buf cid hss hbuf
    have hs := hss s (List.mem_cons_self _ _)
    have hss' : ∀ x ∈ ss, ∀ c ∈ x, isTerm c = false ∧ isPyWs c = false :=
      fun x hx => hss x (List.mem_cons_of_mem _ hx)
    have hsws : ∀ c ∈ s, isPyWs c = false := fun c hc => (hs c hc).2
    have hsdot : removeDots s = s := removeDots_eq_self (fun c hc => (hs c hc).1)
    by_cases hc : size < buf.length + s.length ∧ buf ≠ []
    · have hstrip : pyStrip buf = buf := pyStrip_eq_self hbuf
      simp only [chunksLoop, if_pos hc, List.map_cons, List.flatten_cons,
        removeDots_append, hstrip]
      rw [ih s (cid + 1) hss' hsws]
      simp [hsdot, List.flatten_cons]
    · simp only [chunksLoop, if_neg hc]
      have hbuf' : ∀ c ∈ buf ++ s ++ ['.'], isPyWs c = false := by
        intro c hcm
        rcases List.mem_append.mp hcm with hcm | hcm
        · rcases List.mem_append.mp hcm with hcm | hcm
          · exact hbuf c hcm
          · exact hsws c hcm
        · rw [List.mem_singleton] at hcm
          subst hcm
          rfl
      rw [ih (buf ++ s ++ ['.']) cid hss' hbuf']
      simp only [removeDots_append, hsdot]
      have hdot : removeDots ['.'] = [] := rfl
      simp [hdot, List.flatten_cons, List.append_assoc]

/-- Size invariant of the chunking loop: the buffer is at most one
    re-appended period beyond `size` unless it is a single oversized
    sentence, and emitted chunks inherit that. -/
lemma chunksLoop_size_bound (size : Nat) (S : List (List Char)) :
    ∀ (ss : List (List Char)) (buf : List Char) (cid : Nat),
      (∀ s ∈ ss, s ∈ S) →
      (buf.length ≤ size + 1 ∨
        ∃ s ∈ S, size < s.length ∧ (buf = s ∨ buf = s ++ ['.'])) →
      ∀ ch ∈ chunksLoop size ss buf cid,
        ch.text.length ≤ size + 1 ∨
          ∃ s ∈ S, size < s.length ∧ (ch.text = pyStrip s ∨ ch.text = pyStrip (s ++ ['.'])) := by
  intro ss
  have emitted : ∀ (buf : List Char),
      (buf.length ≤ size + 1 ∨
        ∃ s ∈ S, size < s.length ∧ (buf = s ∨ buf = s ++ ['.'])) →
      (pyStrip buf).length ≤ size + 1 ∨
        ∃ s ∈ S, size < s.length ∧
          (pyStrip buf = pyStrip s ∨ pyStrip buf = pyStrip (s ++ ['.'])) := by
    intro buf hbuf
    rcases hbuf with hlen | ⟨s, hsS, hslen, heq⟩
    · exact Or.inl (le_trans (pyStrip_length_le buf) hlen)
    · rcases heq with heq | heq
      · exact Or.inr ⟨s, hsS, hslen, Or.inl (by rw [heq])⟩
      · exact Or.inr ⟨s, hsS, hslen, Or.inr (by rw [heq])⟩
  induction ss with
  | nil =>
    intro buf cid _ hbuf ch hch
    simp only [chunksLoop] at hch
    by_cases h : pyStrip buf ≠ []
    · rw [if_pos h, List.mem_singleton] at hch
      subst hch
      exact emitted buf hbuf
    · rw [if_neg h] at hch
      simp at hch
  | cons s ss ih =>
    intro buf cid hss hbuf ch hch
    have hsS := hss s (List.mem_cons_self _ _)
    have hss' : ∀ x ∈ ss, x ∈ S := fun x hx => hss x (List.mem_cons_of_mem _ hx)
    by_cases hc : size < buf.length + s.length ∧ buf ≠ []
    · simp only [chunksLoop, if_pos hc, List.mem_cons] at hch
      rcases hch with rfl | hch
      · exact emitted buf hbuf
      · refine ih s (cid + 1) hss' ?_ ch hch
        by_cases hslen : s.length ≤ size + 1
        · exact Or.inl hslen
        · exact Or.inr ⟨s, hsS, by omega, Or.inl rfl⟩
    · simp only [chunksLoop, if_neg hc] at hch
      refine ih (buf ++ s ++ ['.']) cid hss' ?_ ch hch
      rw [not_and_or] at hc
      rcases hc with hlen | hnil
    -- either the append fit within `size`, or the buffer was empty
      · rw [Nat.not_lt] at hlen
        refine Or.inl ?_
        simp only [List.length_append, List.length_singleton]
        omega
      · rw [not_not] at hnil
        subst hnil
        by_cases hslen : s.length + 1 ≤ size + 1
        · refine Or.inl ?_
          simp only [List.nil_append, List.length_append, List.length_singleton]
          omega
        · refine Or.inr ⟨s, hsS, by omega, Or.inr ?_⟩
          simp

lemma getLast?_cons_of_ne {a : Chunk} {l : List Chunk} (h : l ≠ []) :
    (a :: l).getLast? = l.getLast? := by
  cases l with
  | nil => exact absurd rfl h
  | cons b l => exact List.getLast?_cons_cons

/-- Whenever the loop's leftover buffer strips to something non-empty, the
    last emitted chunk is the final chunk and carries `"Final chunk"`. -/
lemma chunksLoop_final_label (size : Nat) :
    ∀ (ss : List (List Char)) (buf : List Char) (cid : Nat),
      pyStrip (leftoverBuf size ss buf) ≠ [] →
      ((chunksLoop size ss buf cid).getLast?).map Chunk.page_info = some finalChunkLabel := by
  intro ss
  induction ss with
  | nil =>
    intro buf cid h
    simp only [leftoverBuf] at h
    simp [chunksLoop, h]
  | cons s ss ih =>
    intro buf cid h
    by_cases hc : size < buf.length + s.length ∧ buf ≠ []
    · simp only [leftoverBuf, if_pos hc] at h
      have hrec := ih s (cid + 1) h
      have hne : chunksLoop size ss s (cid + 1) ≠ [] := by
        intro hnil
        rw [hnil] at hrec
        simp at hrec
      simp only [chunksLoop, if_pos hc]
      rw [getLast?_cons_of_ne hne]
      exact hrec
    · simp only [leftoverBuf, if_neg hc] at h
      simp only [chunksLoop, if_neg hc]
      exact ih _ cid h

/-- Once the buffer has been opened by an overflowing sentence, every chunk
    the loop still emits has the `laterChunkText` shape. -/
lemma chunksLoop_later_shape (size : Nat) (S : List (List Char)) :
    ∀ (ss : List (List Char)) (buf : List Char) (cid : Nat),
      (∀ s ∈ ss, s ∈ S) →
      (∃ s ∈ S, ∃ g : List (List Char), (∀ x ∈ g, x ∈ S) ∧ buf = s ++ withPeriods g) →
      ∀ ch ∈ chunksLoop size ss buf cid, laterChunkText S ch.text := by
  intro ss
  induction ss with
  | nil =>
    intro buf cid _ hbuf ch hch
    simp only [chunksLoop] at hch
    by_cases h : pyStrip buf ≠ []
    · rw [if_pos h, List.mem_singleton] at hch
      subst hch
      obtain ⟨s, hsS, g, hg, heq⟩ := hbuf
      exact ⟨s, hsS, g, hg, by rw [heq]⟩
    · rw [if_neg h] at hch
      simp at hch
  | cons s ss ih =>
    intro buf cid hss hbuf ch hch
    have hsS := hss s (List.mem_cons_self _ _)
    have hss' : ∀ x ∈ ss, x ∈ S := fun x hx => hss x (List.mem_cons_of_mem _ hx)
    by_cases hc : size < buf.length + s.length ∧ buf ≠ []
    · simp only [chunksLoop, if_pos hc, List.mem_cons] at hch
      rcases hch with rfl | hch
      · obtain ⟨s₀, hs₀, g, hg, heq⟩ := hbuf
        exact ⟨s₀, hs₀, g, hg, by rw [heq]⟩
      · refine ih s (cid + 1) hss' ?_ ch hch
        exact ⟨s, hsS, [], fun x hx => absurd hx (List.not_mem_nil x),
          by simp [withPeriods]⟩
    · simp only [chunksLoop, if_neg hc] at hch
      refine ih (buf ++ s ++ ['.']) cid hss' ?_ ch hch
      obtain ⟨s₀, hs₀, g, hg, heq⟩ := hbuf
      refine ⟨s₀, hs₀, g ++ [s], ?_, ?_⟩
      · intro x hx
        rcases List.mem_append.mp hx with hx | hx
        · exact hg x hx
        · rw [List.mem_singleton] at hx
          subst hx
          exact hsS
      · rw [heq]
        simp [withPeriods, List.append_assoc]

/-- Every chunk after the first one was opened by an overflowing sentence,
    so its raw buffer starts with a bare sentence carrying no re-appended
    period. -/
lemma chunksLoop_tail_shape (size : Nat) (S : List (List Char)) :
    ∀ (ss : List (List Char)) (buf : List Char) (cid : Nat),
      (∀ s ∈ ss, s ∈ S) →
      ∀ ch ∈ (chunksLoop size ss buf cid).tail, laterChunkText S ch.text := by
  intro ss
  induction ss with
  | nil =>
    intro buf cid _ ch hch
    simp only [chunksLoop] at hch
    by_cases h : pyStrip buf ≠ []
    · rw [if_pos h] at hch
      simp at hch
    · rw [if_neg h] at hch
      simp at hch
  | cons s ss ih =>
    intro buf cid hss ch hch
    have hsS := hss s (List.mem_cons_self _ _)
    have hss' : ∀ x ∈ ss, x ∈ S := fun x hx => hss x (List.mem_cons_of_mem _ hx)
    by_cases hc : size < buf.length + s.length ∧ buf ≠ []
    · simp only [chunksLoop, if_pos hc, List.tail_cons] at hch
      exact chunksLoop_later_shape size S ss s (cid + 1) hss'
        ⟨s, hsS, [], fun x hx => absurd hx (List.not_mem_nil x), by simp [withPeriods]⟩
        ch hch
    · simp only [chunksLoop, if_neg hc] at hch
      exact ih _ cid hss' ch hch

/-! ## Claim theorems -/

/-- **C1**: for every query and chunk text, the score computed by
    `search_keywords` equals the sum, over the set of unique lower-cased
    whitespace-separated query words, of the non-overlapping substring
    occurrence count of that word in the lower-cased chunk text, plus a
    bonus of exactly 5 for each of the eight fixed medical terms that is a
    literal substring of both the lower-cased query and the lower-cased
    chunk text, once per term; duplicated query words do not increase the
    score (the sum ranges over a set). -/
theorem C1_score_spec (query ctext : List Char) :
    chunkScore query ctext = specScore query ctext := by
  have hsum : ((pySplitWs (pyLower query)).toFinset).sum
        (fun w => countOccs w (pyLower ctext))
      = (((pySplitWs (pyLower query)).dedup).map
          (fun w => countOccs w (pyLower ctext))).sum := by
    rw [← toFinset_dedup_list]
    exact List.sum_toFinset _ (List.nodup_dedup _)
  have hfilter : medicalTerms.filter
        (fun t => containsSub t (pyLower ctext) && containsSub t (pyLower query))
      = medicalTerms.filter
        (fun t => containsSub t (pyLower query) && containsSub t (pyLower ctext)) :=
    List.filter_congr (fun t _ => Bool.and_comm _ _)
  simp only [chunkScore, specScore, hsum, hfilter,
    foldl_boost (fun t => containsSub t (pyLower ctext) && containsSub t (pyLower query))]

/-- **C4, as stated, is false**: on the empty input text the chunker does
    not return an empty chunk sequence. -/
theorem C4_cex : create_chunks [] 1000 ≠ [] := by decide

/-- **C4 (amended)**: on the empty input text the chunker returns exactly
    one chunk, whose text is the single synthetic period `"."`, with id 0
    and page label `"Final chunk"` (the empty sentence piece is accumulated
    as `"" + "."` and survives the final `strip`). -/
theorem C4_empty_text (size : Nat) :
    create_chunks [] size = [⟨['.'], 0, finalChunkLabel⟩] := by
  have hsplit : splitSent [] = [[]] := rfl
  unfold create_chunks
  rw [hsplit]
  have hcond : ¬(size < ([] : List Char).length + ([] : List Char).length ∧
      ([] : List Char) ≠ []) := by simp
  rw [chunksLoop, if_neg hcond]
  have hstrip : pyStrip ['.'] = ['.'] := by decide
  rw [chunksLoop]
  simp [hstrip]

/-- **C9**: two runs of the query pipeline on the same question that differ
    only in the urgent flag produce identical search results, identical
    assembled context and an identical prompt for the generation
    collaborator; the flag only reaches the presentation fields. -/
theorem C9_urgent_noninterference (chunks : List Chunk) (question : List Char)
    (u₁ u₂ : Bool) :
    (runQuery chunks question u₁).searchResults = (runQuery chunks question u₂).searchResults ∧
    (runQuery chunks question u₁).context = (runQuery chunks question u₂).context ∧
    (runQuery chunks question u₁).prompt = (runQuery chunks question u₂).prompt :=
  ⟨rfl, rfl, rfl⟩

/-- **C2, as stated, is false**: for the one-space input text `" "` (any
    sentence containing whitespace at a stripped position behaves alike),
    the chunker emits the single chunk `"."`; removing the synthetic periods
    leaves `""`, while the sentence sequence is `[" "]` — the whitespace of
    the sentence was stripped away, so concatenation does not reconstruct
    the sentence sequence. -/
theorem C2_cex :
    ¬ removeDots (((create_chunks " ".toList 1000).map Chunk.text).flatten)
        = (splitSent " ".toList).flatten := by decide

/-- **C2 (amended)**: for every input text free of whitespace characters
    (chunk texts are whitespace-stripped, so boundary whitespace is
    otherwise lost and an all-whitespace leftover buffer is dropped) and
    every target size, concatenating the texts of all chunks with the
    synthetic re-appended periods removed reconstructs exactly the
    concatenation of the sentence sequence obtained by splitting on
    `.`, `!`, `?`: no sentence is omitted and none is duplicated. -/
theorem C2_reconstruction (text : List Char) (size : Nat)
    (h : ∀ c ∈ text, isPyWs c = false) :
    removeDots (((create_chunks text size).map Chunk.text).flatten)
      = (splitSent text).flatten := by
  have hss : ∀ s ∈ splitSent text, ∀ c ∈ s, isTerm c = false ∧ isPyWs c = false := by
    intro s hs c hc
    obtain ⟨h1, h2⟩ := splitSent_chars text s hs c hc
    exact ⟨h1, h c h2⟩
  have hbuf : ∀ c ∈ ([] : List Char), isPyWs c = false := by
    intro c hc
    simp at hc
  unfold create_chunks
  rw [chunksLoop_content size (splitSent text) [] 0 hss hbuf]
  simp [removeDots]

/-- Witness for C2 on the whitespace-free text `"ab.cd"` at target size 3. -/
theorem C2_witness :
    (∀ c ∈ "ab.cd".toList, isPyWs c = false) ∧
    removeDots (((create_chunks "ab.cd".toList 3).map Chunk.text).flatten)
      = (splitSent "ab.cd".toList).flatten :=
  ⟨by decide, C2_reconstruction "ab.cd".toList 3 (by decide)⟩

/-- **C3**: every chunk the chunker produces either has text length at most
    `size + 1` — at most the target size plus the one re-appended
    terminator period of its trailing sentence — or is a whole single
    oversized sentence, emitted as its own chunk (its text is the stripped
    sentence, possibly with the one re-appended period), never split
    mid-sentence. -/
theorem C3_size_bound (text : List Char) (size : Nat) :
    ∀ ch ∈ create_chunks text size,
      ch.text.length ≤ size + 1 ∨
        ∃ s ∈ splitSent text, size < s.length ∧
          (ch.text = pyStrip s ∨ ch.text = pyStrip (s ++ ['.'])) :=
  chunksLoop_size_bound size (splitSent text) (splitSent text) [] 0
    (fun _ hx => hx) (Or.inl (by simp))

/-- Witness for C3: the first chunk of `"ab.cd"` chunked at target size 3. -/
theorem C3_witness :
    (⟨"ab.".toList, 0, unknownPageLabel⟩ : Chunk) ∈ create_chunks "ab.cd".toList 3 ∧
    ((⟨"ab.".toList, 0, unknownPageLabel⟩ : Chunk).text.length ≤ 3 + 1 ∨
      ∃ s ∈ splitSent "ab.cd".toList, 3 < s.length ∧
        ((⟨"ab.".toList, 0, unknownPageLabel⟩ : Chunk).text = pyStrip s ∨
          (⟨"ab.".toList, 0, unknownPageLabel⟩ : Chunk).text = pyStrip (s ++ ['.']))) :=
  ⟨by decide, C3_size_bound "ab.cd".toList 3 _ (by decide)⟩

set_option maxRecDepth 100000 in
/-- **C5, as stated, is false**: when an oversized sentence is followed only
    by a final terminator, the loop emits it and the leftover buffer strips
    to empty, so the *last* emitted chunk is a loop chunk to which the page
    scan does apply.  Here the input is `"--- Page"` followed by 993 `'x'`
    and `'.'` (chunked at the default size 1000): the chunking is non-empty
    and its last chunk's label is the scanned `"--- Page…"` line, not
    `"Final chunk"`, even though a page-marker line occurs in the first 10
    lines of its text. -/
theorem C5_cex :
    create_chunks (pageMarker ++ List.replicate 993 'x' ++ ['.']) 1000 ≠ [] ∧
    ((create_chunks (pageMarker ++ List.replicate 993 'x' ++ ['.']) 1000).getLast?).map
        Chunk.page_info ≠ some finalChunkLabel ∧
    ((create_chunks (pageMarker ++ List.replicate 993 'x' ++ ['.']) 1000).getLast?).map
        (fun ch => containsSub pageMarker ch.text) = some true := by decide

/-- **C5 (amended)**: whenever the leftover buffer after the accumulation
    loop strips to something non-empty, the chunk emitted from it is the
    last chunk and its page label is exactly `"Final chunk"`, even when a
    `"--- Page"` marker line occurs within the first 10 lines of its text —
    the page-marker scan never applies to this trailing chunk.  (When the
    leftover buffer strips to empty, the last chunk is a loop chunk and the
    scan does apply to it.) -/
theorem C5_final_label (text : List Char) (size : Nat)
    (h : pyStrip (leftoverBuf size (splitSent text) []) ≠ []) :
    ((create_chunks text size).getLast?).map Chunk.page_info = some finalChunkLabel :=
  chunksLoop_final_label size (splitSent text) [] 0 h

/-- Witness for C5: `"ab.cd"` at the default size leaves `"ab.cd."` in the
    buffer, and the last chunk is labelled `"Final chunk"`. -/
theorem C5_witness :
    pyStrip (leftoverBuf 1000 (splitSent "ab.cd".toList) []) ≠ [] ∧
    ((create_chunks "ab.cd".toList 1000).getLast?).map Chunk.page_info
      = some finalChunkLabel :=
  ⟨by decide, C5_final_label "ab.cd".toList 1000 (by decide)⟩

/-- **C6**: the sequence returned by `search_keywords` is sorted by score in
    descending order; it has at most `max_results` entries (the parameter
    defaults to 5); and the sort is stable: for each score value, the
    returned entries with that score are an initial segment of the
    positively-scored chunks with that score taken in original chunk order
    (`scoredList` enumerates them in the order of the input chunk
    sequence). -/
theorem C6_ranking (chunks : List Chunk) (q : List Char) (m : Nat) :
    (search_keywords chunks q m).Sorted (fun a b => b.score ≤ a.score) ∧
    (search_keywords chunks q m).length ≤ m ∧
    ∀ v : Nat, ∃ k, (search_keywords chunks q m).filter (fun e => e.score == v)
        = ((scoredList chunks q).filter (fun e => e.score == v)).take k := by
  refine ⟨?_, ?_, ?_⟩
  · unfold search_keywords
    exact List.Pairwise.sublist (List.take_sublist _ _) (sorted_sortDesc _)
  · unfold search_keywords
    exact List.length_take_le _ _
  · intro v
    obtain ⟨k, hk⟩ := filter_take (fun e => e.score == v) (sortDesc (scoredList chunks q)) m
    refine ⟨k, ?_⟩
    unfold search_keywords
    rw [hk, filter_sortDesc]

/-- **C7, as stated, is false**: no word of the query `"xbleedingy"` occurs
    as a substring of the chunk text `"bleeding"`, yet `search_keywords`
    does not return the empty sequence — the medical-term boost tests the
    term against the whole lower-cased query string, not against its words,
    and `"bleeding"` is a substring of `"xbleedingy"`, giving the chunk
    score 5. -/
theorem C7_cex :
    (∀ ch ∈ ([⟨"bleeding".toList, 0, "p".toList⟩] : List Chunk),
      ∀ w ∈ pySplitWs (pyLower "xbleedingy".toList),
        countOccs w (pyLower ch.text) = 0) ∧
    search_keywords [⟨"bleeding".toList, 0, "p".toList⟩] "xbleedingy".toList 5 ≠ [] := by
  decide

/-- **C7 (amended)**: no chunk with score 0 ever appears in the result of
    `search_keywords`; and whenever additionally no query word occurs in
    any chunk's lower-cased text *and* no medical term is a substring of
    both the lower-cased query and a chunk's lower-cased text (the
    substring-based boost can fire even when no whole query word matches),
    the result is the empty sequence. -/
theorem C7_zero_excluded (chunks : List Chunk) (q : List Char) (m : Nat) :
    (∀ e ∈ search_keywords chunks q m, 0 < e.score) ∧
    ((∀ ch ∈ chunks,
        (∀ w ∈ pySplitWs (pyLower q), countOccs w (pyLower ch.text) = 0) ∧
        (∀ t ∈ medicalTerms, ¬(containsSub t (pyLower ch.text) = true ∧
            containsSub t (pyLower q) = true))) →
      search_keywords chunks q m = []) := by
  constructor
  · intro e he
    unfold search_keywords at he
    exact mem_scoredList_pos (mem_sortDesc.mp (List.mem_of_mem_take he))
  · intro h
    have hnil : scoredList chunks q = [] := by
      rw [scoredList, List.filterMap_eq_nil_iff]
      intro ch hch
      have hscore : chunkScore q ch.text = 0 := by
        obtain ⟨hw, ht⟩ := h ch hch
        simp only [chunkScore,
          foldl_boost (fun t => containsSub t (pyLower ch.text) && containsSub t (pyLower q))]
        have hbase : (((pySplitWs (pyLower q)).dedup).map
            (fun w => countOccs w (pyLower ch.text))).sum = 0 := by
          apply List.sum_eq_zero
          intro x hx
          rw [List.mem_map] at hx
          obtain ⟨w, hwmem, rfl⟩ := hx
          exact hw w (List.mem_dedup.mp hwmem)
        have hfilt : medicalTerms.filter
            (fun t => containsSub t (pyLower ch.text) && containsSub t (pyLower q)) = [] := by
          rw [List.filter_eq_nil_iff]
          intro t htm hcontra
          rw [Bool.and_eq_true] at hcontra
          exact ht t htm ⟨hcontra.1, hcontra.2⟩
        rw [hbase, hfilt]
        simp
      simp [hscore]
    unfold search_keywords
    rw [hnil]
    simp [sortDesc]

/-- Witness for C7: a query sharing nothing with the only chunk yields the
    empty result, and (vacuously on it) every returned score is positive. -/
theorem C7_witness :
    (∀ e ∈ search_keywords [⟨"zebra".toList, 0, "p".toList⟩] "qqq".toList 5, 0 < e.score) ∧
    search_keywords [⟨"zebra".toList, 0, "p".toList⟩] "qqq".toList 5 = [] :=
  ⟨(C7_zero_excluded [⟨"zebra".toList, 0, "p".toList⟩] "qqq".toList 5).1,
    (C7_zero_excluded [⟨"zebra".toList, 0, "p".toList⟩] "qqq".toList 5).2 (by decide)⟩

/-- **C8**: the assembled context is built from at most the top 3 scored
    entries (taking the top 3 first changes nothing), there are at most 3
    context blocks, each block's chunk-text contribution is the first 600
    characters of its chunk text (length at most 600) after a block header,
    and the empty scored sequence assembles to the empty context. -/
theorem C8_context_bounds (results : List ScoredChunk) :
    buildContext results = buildContext (results.take 3) ∧
    (contextParts results).length ≤ 3 ∧
    (∀ p ∈ contextParts results, ∃ r ∈ results.take 3, ∃ hdr,
      p = hdr ++ r.text.take 600 ∧ (r.text.take 600).length ≤ 600) ∧
    buildContext ([] : List ScoredChunk) = [] := by
  refine ⟨?_, ?_, ?_, rfl⟩
  · unfold buildContext contextParts
    cases results with
    | nil => simp
    | cons a l => simp [List.take_take]
  · unfold contextParts
    rw [List.length_map, List.enum_length]
    exact List.length_take_le _ _
  · intro p hp
    unfold contextParts at hp
    rw [List.mem_map] at hp
    obtain ⟨⟨i, r⟩, hmem, rfl⟩ := hp
    have hr : r ∈ results.take 3 := by
      rw [List.enum_eq_zip_range] at hmem
      exact (List.of_mem_zip hmem).2
    refine ⟨r, hr, "[Source ".toList ++ (Nat.repr (i + 1)).toList ++ " - ".toList ++
      pageDisplay r.page_info ++ "]".toList ++ nlLit, ?_, List.length_take_le _ _⟩
    unfold contextPart
    simp [List.append_assoc]

/-- Witness for C8: the single context block of a one-result list. -/
theorem C8_witness :
    contextPart 0 ⟨"hello".toList, "p".toList, 7, 0⟩
        ∈ contextParts [⟨"hello".toList, "p".toList, 7, 0⟩] ∧
    ∃ r ∈ ([⟨"hello".toList, "p".toList, 7, 0⟩] : List ScoredChunk).take 3, ∃ hdr,
      contextPart 0 ⟨"hello".toList, "p".toList, 7, 0⟩ = hdr ++ r.text.take 600 ∧
      (r.text.take 600).length ≤ 600 := by
  have hmem : contextPart 0 ⟨"hello".toList, "p".toList, 7, 0⟩
      ∈ contextParts [⟨"hello".toList, "p".toList, 7, 0⟩] := by
    unfold contextParts
    simp [List.enum]
  exact ⟨hmem, (C8_context_bounds [⟨"hello".toList, "p".toList, 7, 0⟩]).2.2.1 _ hmem⟩

/-- **C10**: a terminator period is re-appended only to sentences
    accumulated into the running buffer; the sentence that triggers an
    overflow and opens a new chunk is stored bare.  Hence every chunk other
    than the first decomposes as the strip of a bare first sentence (a
    member of the sentence sequence, with no re-appended `'.'` after it)
    followed by accumulated sentences each carrying their re-appended
    `'.'`. -/
theorem C10_later_chunks (text : List Char) (size : Nat) :
    ∀ ch ∈ (create_chunks text size).tail, laterChunkText (splitSent text) ch.text :=
  chunksLoop_tail_shape size (splitSent text) (splitSent text) [] 0 (fun _ hx => hx)

/-- Witness for C10: the second chunk of `"aaaa.bb.cc"` at target size 4 is
    `"bbcc."` — opened by the bare sentence `"bb"` with no period after it,
    then `"cc"` accumulated with its re-appended period. -/
theorem C10_witness :
    (⟨"bbcc.".toList, 1, finalChunkLabel⟩ : Chunk) ∈ (create_chunks "aaaa.bb.cc".toList 4).tail ∧
    laterChunkText (splitSent "aaaa.bb.cc".toList)
      (⟨"bbcc.".toList, 1, finalChunkLabel⟩ : Chunk).text :=
  ⟨by decide, C10_later_chunks "aaaa.bb.cc".toList 4 _ (by decide)⟩
